import Mathlib

/-!
Shallow embedding of fastqio's chunked FASTQ processing engine
(src/fastqio/fastq.py) and verification of its specification.

A file opened in text mode is modelled as the list of its lines with the
trailing newline already stripped (the line source strips `"\n"` on read).
The `FASTQReader`'s mutable file handle is modelled by an explicit cursor:
each operation receives the cursor position left by the previous call and
returns its result together with the cursor position it leaves behind.
The non-deterministic completion order of `as_completed` over the submitted
chunk futures is modelled by an explicit `order : List Nat` of chunk
indices; a real execution corresponds to an `order` that is a permutation
of the submitted chunk indices.
-/

/-- A line of the file, newline stripped. -/
abbrev Line := List Char

/-- `FASTQRecord(info, seq, quality)` from fastq.py. -/
structure FASTQRecord where
  info : Line
  seq : Line
  quality : Line
deriving DecidableEq, Repr

/-- The 4-line grouping shared by `_record_generator` and the chunk loops of
`trim` / `filter_quality`: lines are consumed four at a time
(`lines[i], lines[i+1], lines[i+3]`, skipping the plus line), and a trailing
group with fewer than four lines produces nothing
(`if i + 3 < len(lines)` / the generator's `StopIteration` break). -/
def groupRecords : List Line → List FASTQRecord
  | info :: seq :: _plus :: qual :: rest => ⟨info, seq, qual⟩ :: groupRecords rest
  | _ => []

/-- The grouping used by `extract`: `records.append(lines[i+1])` guarded only
by `if i + 1 < len(lines)`, so a trailing group contributes its second line
whenever it has at least two lines. -/
def extractSeqs : List Line → List Line
  | _ :: seq :: _ :: _ :: rest => seq :: extractSeqs rest
  | [_, seq] => [seq]
  | [_, seq, _] => [seq]
  | _ => []

/-- `load_chunk(file_handle, chunk_size)`: read up to `chunk_size * 4` lines
from the handle at position `pos`; the handle advances by the number of lines
actually read. -/
def load_chunk (file : List Line) (chunk_size pos : Nat) : List Line × Nat :=
  let lines := (file.drop pos).take (chunk_size * 4)
  (lines, pos + lines.length)

/-- The `while True: lines = load_chunk(...); if not lines: break` loop shared
by `count_reads`, `trim`, `filter_quality` and `extract`, written with
explicit fuel so that it is structurally recursive. Returns the list of
chunks in read order together with the final handle position. -/
def chunkLoopF (file : List Line) (chunk_size : Nat) : Nat → Nat → List (List Line) × Nat
  | 0, pos => ([], pos)
  | fuel + 1, pos =>
    let lc := load_chunk file chunk_size pos
    if lc.1 = [] then ([], pos)
    else
      let r := chunkLoopF file chunk_size fuel lc.2
      (lc.1 :: r.1, r.2)

/-- The chunk-reading loop of the four bulk operations, started at handle
position `pos`. Each iteration with a non-empty chunk advances the handle by
at least one line, so `file.length + 1` units of fuel always suffice. -/
def chunkLoop (file : List Line) (chunk_size pos : Nat) : List (List Line) × Nat :=
  chunkLoopF file chunk_size (file.length + 1) pos

/-- The gather side of the scheduler: `for future in as_completed(futures)`
extends the result list with each chunk's batch in completion order.
`order` lists the chunk indices in the order their futures complete;
`batches.getD i []` is chunk `i`'s batch. -/
def gather (batches : List (List α)) (order : List Nat) : List α :=
  order.flatMap (fun i => batches.getD i [])

/-- `_reset_file`: close and reopen the file, leaving the handle at the
start of the file whatever its previous position was. -/
def reset_file (_pos : Nat) : Nat := 0

/-- Modelled from the spec: the slicing `seq[five_prime : len(seq) - three_prime]`
performed per string by `trim_records_cython`, whose Cython source
(fastqio/fastq_cython.pyx) is not part of the analysed sources. Per §4.2 the
output is the substring from index `five_prime` to `len - three_prime`, and
the empty string (never an error) when `five_prime + three_prime >= len`. -/
def pyTrimSlice (five_prime three_prime : Nat) (s : Line) : Line :=
  (s.take (s.length - three_prime)).drop five_prime

/-- Modelled from the spec: the per-record action of `trim_records_cython`
(missing Cython source): both `seq` and `quality` are excised symmetrically,
and the header `info` is passed through unchanged (§4.2). -/
def trimOne (five_prime three_prime : Nat) (r : FASTQRecord) : FASTQRecord :=
  ⟨r.info, pyTrimSlice five_prime three_prime r.seq,
    pyTrimSlice five_prime three_prime r.quality⟩

/-- Modelled from the spec: `trim_records_cython(records, five_prime, three_prime)`
(missing Cython source) maps `trimOne` over the batch of records. -/
def trim_records_cython (records : List FASTQRecord) (five_prime three_prime : Nat) :
    List FASTQRecord :=
  records.map (trimOne five_prime three_prime)

/-- The sum over a quality string of the per-character Phred+33 scores
`ord(c) - 33`. -/
def scoreSum (q : Line) : Int :=
  (q.map (fun c => (c.toNat : Int) - 33)).sum

/-- Modelled from the spec: the per-record acceptance test of
`filter_quality_cython` (missing Cython source). Per §4.2 a record passes
when the arithmetic mean over its quality characters of `ord(c) - 33` is at
least `threshold`; a record with an empty quality string fails. Stated as
the equivalent cross-multiplied integer comparison
`threshold.num * len ≤ sum * threshold.den` so that it evaluates by `decide`;
the claim theorem for C5 proves it equal to `threshold ≤ sum / len`. -/
def passes_threshold (threshold : ℚ) (r : FASTQRecord) : Bool :=
  0 < r.quality.length &&
    threshold.num * r.quality.length ≤ scoreSum r.quality * threshold.den

/-- Modelled from the spec: `filter_quality_cython(records, threshold)`
(missing Cython source) keeps, unchanged and in order, exactly the records
whose average quality meets the threshold. -/
def filter_quality_cython (records : List FASTQRecord) (threshold : ℚ) :
    List FASTQRecord :=
  records.filter (passes_threshold threshold)

/-- Clamping of one Python slice endpoint for a sequence of length `n`:
a negative index counts from the end (clamped below at 0), a non-negative
index is clamped above at `n`. -/
def pyIndex (n : Nat) (i : Int) : Nat :=
  if i < 0 then ((n : Int) + i).toNat else min i.toNat n

/-- Python slicing `s[start : stop]` as used by `extract`'s lambda
`seq[start:end]`: the elements at positions `pyIndex start ≤ k < pyIndex stop`. -/
def pySlice (s : Line) (start stop : Int) : Line :=
  (s.take (pyIndex s.length stop)).drop (pyIndex s.length start)

/-- `FASTQReader(file_path, thread, chunk_size)`. The opened file is
represented by its list of lines; `thread` is the worker-pool size (it
bounds concurrency but does not enter the data path). -/
structure FASTQReader where
  lines : List Line
  thread : Nat
  chunk_size : Nat

/-- `list(iter(reader))`: `__iter__` resets the handle to file start and
`_record_generator` lazily yields one record per complete 4-line group until
`StopIteration`, leaving the handle at end-of-file once exhausted. -/
def FASTQReader.iterate (rd : FASTQReader) (_pos : Nat) : List FASTQRecord × Nat :=
  (groupRecords rd.lines, rd.lines.length)

/-- `FASTQReader.count_reads`: reset, split into chunks, submit
`len(lines) // 4` per chunk, sum the futures' results in completion order,
reset again. -/
def FASTQReader.count_reads (rd : FASTQReader) (pos : Nat) (order : List Nat) : Nat × Nat :=
  let r := chunkLoop rd.lines rd.chunk_size (reset_file pos)
  let counts := r.1.map (fun chunk => chunk.length / 4)
  ((order.map (fun i => counts.getD i 0)).sum, reset_file r.2)

/-- `FASTQReader.trim`: reset, chunk, group each chunk's lines into records
(4 lines each, `if i + 3 < len(lines)`), submit `trim_records_cython` per
chunk, extend the result list in completion order, reset again. -/
def FASTQReader.trim (rd : FASTQReader) (pos : Nat) (order : List Nat)
    (five_prime three_prime : Nat) : List FASTQRecord × Nat :=
  let r := chunkLoop rd.lines rd.chunk_size (reset_file pos)
  let batches := r.1.map
    (fun chunk => trim_records_cython (groupRecords chunk) five_prime three_prime)
  (gather batches order, reset_file r.2)

/-- `FASTQReader.filter_quality`: reset, chunk, group each chunk's lines into
records, submit `filter_quality_cython` per chunk, extend the result list in
completion order, reset again. -/
def FASTQReader.filter_quality (rd : FASTQReader) (pos : Nat) (order : List Nat)
    (threshold : ℚ) : List FASTQRecord × Nat :=
  let r := chunkLoop rd.lines rd.chunk_size (reset_file pos)
  let batches := r.1.map
    (fun chunk => filter_quality_cython (groupRecords chunk) threshold)
  (gather batches order, reset_file r.2)

/-- `FASTQReader.extract`: reset, chunk, collect each chunk's sequence lines
(`lines[i+1]` guarded by `if i + 1 < len(lines)`), submit the slicing lambda
per chunk, extend in completion order, reset; then either return the list
(first component) or write it to the parquet sink and return `none`
(the written column is the second component). -/
def FASTQReader.extract (rd : FASTQReader) (pos : Nat) (order : List Nat)
    (start stop : Int) (save_parquet : Bool) :
    (Option (List Line) × Option (List Line)) × Nat :=
  let r := chunkLoop rd.lines rd.chunk_size (reset_file pos)
  let extracted := gather
    (r.1.map (fun chunk => (extractSeqs chunk).map (fun s => pySlice s start stop))) order
  (if save_parquet then (none, some extracted) else (some extracted, none),
   reset_file r.2)

/-- The result-collection loop `for future in as_completed(futures):
result = future.result(); collection.extend(result)` when a transform
invocation may fail: `future.result()` re-raises the first failure met in
completion order, abandoning the partial collection; otherwise the batches
are concatenated in completion order. -/
def gatherE (batches : List (Except String (List α))) : List Nat → Except String (List α)
  | [] => Except.ok []
  | i :: rest =>
    match batches.getD i (Except.ok []) with
    | Except.error e => Except.error e
    | Except.ok b =>
      match gatherE batches rest with
      | Except.error e => Except.error e
      | Except.ok acc => Except.ok (b ++ acc)

/-- The sample FASTQ file used in the repository's tests (tests/test_fastqio.py):
two complete records. -/
def sampleLines : List Line :=
  ["@read1".toList, "ACGTACGTACGT".toList, "+".toList, "IIIIIIIIIIII".toList,
   "@read2".toList, "TGCAAGCTTGCA".toList, "+".toList, "JJJJJJJJJJJJ".toList]

/-- The test file of `test_filter_quality`: first record all-`!` quality
(score 0), second all-`J` (score 41). -/
def qualLines : List Line :=
  ["@read1".toList, "ACGTACGTACGT".toList, "+".toList, "!!!!!!!!!!!!".toList,
   "@read2".toList, "TGCAAGCTTGCA".toList, "+".toList, "JJJJJJJJJJJJ".toList]

/-- A truncated file: one complete record followed by a 2-line fragment of a
second record (header and sequence line only). -/
def truncLines : List Line := sampleLines.take 6

/-- A reader over the sample file with `thread=4, chunk_size=1`, as in the
tests. -/
def sampleReader : FASTQReader := ⟨sampleLines, 4, 1⟩

/-- Two successful chunk batches from the test file, for the C9 witness. -/
def okBatches : List (Except String (List FASTQRecord)) :=
  [Except.ok (groupRecords (sampleLines.take 4)),
   Except.ok (groupRecords (sampleLines.drop 4))]

/-- One successful and one failed chunk batch, for the C9 witness. -/
def errBatches : List (Except String (List FASTQRecord)) :=
  [Except.ok (groupRecords (sampleLines.take 4)),
   Except.error "worker failed"]

/-! ### Structural lemmas: grouping, the chunk loop, and the gather step -/

theorem groupRecords_append : ∀ (l₁ : List Line), 4 ∣ l₁.length →
    ∀ l₂, groupRecords (l₁ ++ l₂) = groupRecords l₁ ++ groupRecords l₂
  | [], _, l₂ => rfl
  | _ :: _ :: _ :: _ :: t, h, l₂ => by
    have ht : 4 ∣ t.length := by
      simp only [List.length_cons] at h
      omega
    simp only [List.cons_append, groupRecords, List.append_eq]
    rw [groupRecords_append t ht l₂]
  | [_], h, _ => by simp only [List.length_cons, List.length_nil] at h; omega
  | [_, _], h, _ => by simp only [List.length_cons, List.length_nil] at h; omega
  | [_, _, _], h, _ => by simp only [List.length_cons, List.length_nil] at h; omega

theorem extractSeqs_append : ∀ (l₁ : List Line), 4 ∣ l₁.length →
    ∀ l₂, extractSeqs (l₁ ++ l₂) = extractSeqs l₁ ++ extractSeqs l₂
  | [], _, l₂ => rfl
  | _ :: _ :: _ :: _ :: t, h, l₂ => by
    have ht : 4 ∣ t.length := by
      simp only [List.length_cons] at h
      omega
    simp only [List.cons_append, extractSeqs, List.append_eq]
    rw [extractSeqs_append t ht l₂]
  | [_], h, _ => by simp only [List.length_cons, List.length_nil] at h; omega
  | [_, _], h, _ => by simp only [List.length_cons, List.length_nil] at h; omega
  | [_, _, _], h, _ => by simp only [List.length_cons, List.length_nil] at h; omega

theorem groupRecords_length : ∀ (l : List Line), (groupRecords l).length = l.length / 4
  | [] => rfl
  | [_] => by simp [groupRecords]
  | [_, _] => by simp [groupRecords]
  | [_, _, _] => by simp [groupRecords]
  | _ :: _ :: _ :: _ :: t => by
    simp only [groupRecords, List.length_cons, groupRecords_length t]
    omega

/-- Unfolding equation for one iteration of the chunk loop. -/
theorem chunkLoopF_succ (file : List Line) (cs fuel pos : Nat) :
    chunkLoopF file cs (fuel + 1) pos =
      if (file.drop pos).take (cs * 4) = [] then ([], pos)
      else ((file.drop pos).take (cs * 4) ::
              (chunkLoopF file cs fuel (pos + ((file.drop pos).take (cs * 4)).length)).1,
            (chunkLoopF file cs fuel (pos + ((file.drop pos).take (cs * 4)).length)).2) := rfl

/-- Once the handle is at or past end-of-file, the loop stops at once. -/
theorem chunkLoopF_of_le (file : List Line) (cs : Nat) :
    ∀ (fuel pos : Nat), file.length ≤ pos → chunkLoopF file cs fuel pos = ([], pos)
  | 0, _, _ => rfl
  | fuel + 1, pos, h => by
    rw [chunkLoopF_succ]
    rw [List.drop_eq_nil_iff.mpr h]
    simp

/-- Master lemma: for any per-chunk grouping `g` that splits across a
boundary at a multiple of four lines, grouping chunk by chunk and
concatenating reproduces grouping the whole remaining file. -/
theorem chunkLoopF_map_flatten {β : Type} (g : List Line → List β)
    (hg : ∀ l₁ l₂ : List Line, 4 ∣ l₁.length → g (l₁ ++ l₂) = g l₁ ++ g l₂)
    (file : List Line) (cs : Nat) (hcs : 0 < cs) :
    ∀ (fuel pos : Nat), file.length ≤ fuel + pos →
      (((chunkLoopF file cs fuel pos).1).map g).flatten = g (file.drop pos)
  | 0, pos, h => by
    have hg0 : g [] = [] := by
      have h0 := hg [] [] (by simp)
      have hlen := congrArg List.length h0
      simp only [List.nil_append, List.length_append] at hlen
      exact List.length_eq_zero.mp (by omega)
    have hd : file.drop pos = [] := List.drop_eq_nil_iff.mpr (by omega)
    simp [chunkLoopF, hd, hg0]
  | fuel + 1, pos, h => by
    have hg0 : g [] = [] := by
      have h0 := hg [] [] (by simp)
      have hlen := congrArg List.length h0
      simp only [List.nil_append, List.length_append] at hlen
      exact List.length_eq_zero.mp (by omega)
    rw [chunkLoopF_succ]
    by_cases hnil : (file.drop pos).take (cs * 4) = []
    · have hd : file.drop pos = [] := by
        rcases List.take_eq_nil_iff.mp hnil with h1 | h2
        · omega
        · exact h2
      simp [hnil, hd, hg0]
    · simp only [hnil, if_false]
      rcases le_or_lt (file.drop pos).length (cs * 4) with hle | hlt
      · -- final chunk: the whole remainder is consumed in one read
        have hlines : (file.drop pos).take (cs * 4) = file.drop pos :=
          List.take_of_length_le hle
        have hpos' : file.length ≤ pos + ((file.drop pos).take (cs * 4)).length := by
          rw [hlines, List.length_drop]
          omega
        rw [chunkLoopF_of_le file cs fuel _ hpos']
        simp [hlines]
      · -- full chunk of exactly cs * 4 lines, followed by further chunks
        have hlen : ((file.drop pos).take (cs * 4)).length = cs * 4 := by
          rw [List.length_take]
          omega
        have hpos1 : 0 < ((file.drop pos).take (cs * 4)).length := by
          rw [hlen]; omega
        have hIH := chunkLoopF_map_flatten g hg file cs hcs fuel
          (pos + ((file.drop pos).take (cs * 4)).length) (by omega)
        simp only [List.map_cons, List.flatten_cons, hIH]
        have hdd : file.drop (pos + ((file.drop pos).take (cs * 4)).length) =
            (file.drop pos).drop (cs * 4) := by
          rw [hlen, List.drop_drop]
        rw [hdd, ← hg _ _ (by rw [hlen]; exact Nat.dvd_mul_left 4 cs), List.take_append_drop]

theorem map_getD_range {α : Type} (l : List α) (d : α) :
    (List.range l.length).map (fun i => l.getD i d) = l := by
  induction l with
  | nil => rfl
  | cons a t ih =>
    rw [List.length_cons, List.range_succ_eq_map, List.map_cons, List.getD_cons_zero,
      List.map_map]
    have hfun : ((fun i => (a :: t).getD i d) ∘ Nat.succ) = (fun i => t.getD i d) := by
      funext i
      simp [List.getD_cons_succ]
    rw [hfun, ih]

/-- The gather step applied in submission order is plain concatenation. -/
theorem gather_range {α : Type} (batches : List (List α)) :
    gather batches (List.range batches.length) = batches.flatten := by
  rw [gather, List.flatMap_def, map_getD_range]

/-- Gathering along any completion order that is a permutation of the chunk
indices yields a permutation of the sequential concatenation. -/
theorem gather_perm {α : Type} (batches : List (List α)) (order : List Nat)
    (h : order.Perm (List.range batches.length)) :
    (gather batches order).Perm batches.flatten := by
  have hp := List.Perm.flatMap_right (fun i => batches.getD i []) h
  rw [gather]
  refine hp.trans ?_
  rw [show (List.range batches.length).flatMap (fun i => batches.getD i []) =
    gather batches (List.range batches.length) from rfl, gather_range]

/-- Every element of a gathered result comes from one of the batches. -/
theorem mem_gather {α : Type} {a : α} {batches : List (List α)} {order : List Nat}
    (h : a ∈ gather batches order) : ∃ b ∈ batches, a ∈ b := by
  rw [gather, List.mem_flatMap] at h
  rcases h with ⟨i, _, ha⟩
  by_cases hi : i < batches.length
  · refine ⟨batches[i], List.getElem_mem hi, ?_⟩
    rwa [List.getD_eq_getElem _ _ hi] at ha
  · rw [List.getD_eq_default _ _ (by omega)] at ha
    exact absurd ha (List.not_mem_nil a)

/-- Summing per-chunk counts in any completion order that is a permutation of
the chunk indices gives the sequential sum. -/
theorem sum_getD_perm (counts : List Nat) (order : List Nat)
    (h : order.Perm (List.range counts.length)) :
    (order.map (fun i => counts.getD i 0)).sum = counts.sum := by
  have hp := h.map (fun i => counts.getD i 0)
  rw [hp.sum_eq, map_getD_range]

/-- Chunk-by-chunk grouping reproduces whole-file grouping, for any grouping
that splits at 4-aligned boundaries. -/
theorem chunkLoop_map_flatten {β : Type} (g : List Line → List β)
    (hg : ∀ l₁ l₂ : List Line, 4 ∣ l₁.length → g (l₁ ++ l₂) = g l₁ ++ g l₂)
    (file : List Line) (cs : Nat) (hcs : 0 < cs) :
    (((chunkLoop file cs 0).1).map g).flatten = g file := by
  have h := chunkLoopF_map_flatten g hg file cs hcs (file.length + 1) 0 (by omega)
  rw [chunkLoop]
  simpa using h

/-- The chunks concatenate back to the file. -/
theorem chunkLoop_flatten (file : List Line) (cs : Nat) (hcs : 0 < cs) :
    ((chunkLoop file cs 0).1).flatten = file := by
  have h := chunkLoop_map_flatten id (fun _ _ _ => rfl) file cs hcs
  simpa using h

theorem chunkLoop_groupRecords (file : List Line) (cs : Nat) (hcs : 0 < cs) :
    (((chunkLoop file cs 0).1).map groupRecords).flatten = groupRecords file :=
  chunkLoop_map_flatten groupRecords (fun l₁ l₂ h => groupRecords_append l₁ h l₂) file cs hcs

theorem chunkLoop_extractSeqs (file : List Line) (cs : Nat) (hcs : 0 < cs) :
    (((chunkLoop file cs 0).1).map extractSeqs).flatten = extractSeqs file :=
  chunkLoop_map_flatten extractSeqs (fun l₁ l₂ h => extractSeqs_append l₁ h l₂) file cs hcs

/-- The per-chunk trim batches concatenate to the sequential trim of the
whole file. -/
theorem trim_batches_flatten (rd : FASTQReader) (five_prime three_prime : Nat)
    (hcs : 0 < rd.chunk_size) :
    (((chunkLoop rd.lines rd.chunk_size 0).1.map
        (fun chunk => trim_records_cython (groupRecords chunk) five_prime three_prime)).flatten) =
      trim_records_cython (groupRecords rd.lines) five_prime three_prime := by
  unfold trim_records_cython
  rw [show ((chunkLoop rd.lines rd.chunk_size 0).1.map
      (fun chunk => (groupRecords chunk).map (trimOne five_prime three_prime))) =
      (((chunkLoop rd.lines rd.chunk_size 0).1.map groupRecords).map
        (List.map (trimOne five_prime three_prime))) by rw [List.map_map]; rfl]
  rw [← List.map_flatten, chunkLoop_groupRecords _ _ hcs]

/-- The per-chunk filter batches concatenate to the sequential filter of the
whole file. -/
theorem filter_batches_flatten (rd : FASTQReader) (threshold : ℚ)
    (hcs : 0 < rd.chunk_size) :
    (((chunkLoop rd.lines rd.chunk_size 0).1.map
        (fun chunk => filter_quality_cython (groupRecords chunk) threshold)).flatten) =
      filter_quality_cython (groupRecords rd.lines) threshold := by
  unfold filter_quality_cython
  rw [show ((chunkLoop rd.lines rd.chunk_size 0).1.map
      (fun chunk => (groupRecords chunk).filter (passes_threshold threshold))) =
      (((chunkLoop rd.lines rd.chunk_size 0).1.map groupRecords).map
        (List.filter (passes_threshold threshold))) by rw [List.map_map]; rfl]
  rw [← List.filter_flatten, chunkLoop_groupRecords _ _ hcs]

/-- The per-chunk extract batches concatenate to the sequential extraction
over the whole file. -/
theorem extract_batches_flatten (rd : FASTQReader) (start stop : Int)
    (hcs : 0 < rd.chunk_size) :
    (((chunkLoop rd.lines rd.chunk_size 0).1.map
        (fun chunk => (extractSeqs chunk).map (fun s => pySlice s start stop))).flatten) =
      (extractSeqs rd.lines).map (fun s => pySlice s start stop) := by
  rw [show ((chunkLoop rd.lines rd.chunk_size 0).1.map
      (fun chunk => (extractSeqs chunk).map (fun s => pySlice s start stop))) =
      (((chunkLoop rd.lines rd.chunk_size 0).1.map extractSeqs).map
        (List.map (fun s => pySlice s start stop))) by rw [List.map_map]; rfl]
  rw [← List.map_flatten, chunkLoop_extractSeqs _ _ hcs]

/-! ### Unfolding lemmas for the public operations -/

theorem count_reads_fst (rd : FASTQReader) (pos : Nat) (order : List Nat) :
    (rd.count_reads pos order).1 =
      (order.map (fun i =>
        ((chunkLoop rd.lines rd.chunk_size 0).1.map (fun chunk => chunk.length / 4)).getD i 0)).sum :=
  rfl

theorem count_reads_snd (rd : FASTQReader) (pos : Nat) (order : List Nat) :
    (rd.count_reads pos order).2 = 0 := rfl

theorem trim_fst (rd : FASTQReader) (pos : Nat) (order : List Nat)
    (five_prime three_prime : Nat) :
    (rd.trim pos order five_prime three_prime).1 =
      gather ((chunkLoop rd.lines rd.chunk_size 0).1.map
        (fun chunk => trim_records_cython (groupRecords chunk) five_prime three_prime)) order :=
  rfl

theorem trim_snd (rd : FASTQReader) (pos : Nat) (order : List Nat)
    (five_prime three_prime : Nat) :
    (rd.trim pos order five_prime three_prime).2 = 0 := rfl

theorem filter_quality_fst (rd : FASTQReader) (pos : Nat) (order : List Nat)
    (threshold : ℚ) :
    (rd.filter_quality pos order threshold).1 =
      gather ((chunkLoop rd.lines rd.chunk_size 0).1.map
        (fun chunk => filter_quality_cython (groupRecords chunk) threshold)) order :=
  rfl

theorem filter_quality_snd (rd : FASTQReader) (pos : Nat) (order : List Nat)
    (threshold : ℚ) :
    (rd.filter_quality pos order threshold).2 = 0 := rfl

theorem extract_fst (rd : FASTQReader) (pos : Nat) (order : List Nat)
    (start stop : Int) (save_parquet : Bool) :
    (rd.extract pos order start stop save_parquet).1 =
      (if save_parquet then
        (none, some (gather ((chunkLoop rd.lines rd.chunk_size 0).1.map
          (fun chunk => (extractSeqs chunk).map (fun s => pySlice s start stop))) order))
      else
        (some (gather ((chunkLoop rd.lines rd.chunk_size 0).1.map
          (fun chunk => (extractSeqs chunk).map (fun s => pySlice s start stop))) order),
         none)) :=
  rfl

theorem extract_snd (rd : FASTQReader) (pos : Nat) (order : List Nat)
    (start stop : Int) (save_parquet : Bool) :
    (rd.extract pos order start stop save_parquet).2 = 0 := rfl

/-! ### Sequential and permuted runs of the public operations -/

/-- `count_reads` under any completion order that is a permutation of the
chunk indices equals the number of complete 4-line groups. -/
theorem count_reads_run (rd : FASTQReader) (pos : Nat) (order : List Nat)
    (hcs : 0 < rd.chunk_size)
    (h : order.Perm (List.range (chunkLoop rd.lines rd.chunk_size 0).1.length)) :
    (rd.count_reads pos order).1 = (groupRecords rd.lines).length := by
  rw [count_reads_fst]
  rw [sum_getD_perm _ _ (by simpa using h)]
  have h1 : ((chunkLoop rd.lines rd.chunk_size 0).1.map (fun chunk => chunk.length / 4)) =
      ((chunkLoop rd.lines rd.chunk_size 0).1.map groupRecords).map List.length := by
    rw [List.map_map]
    exact List.map_congr_left (fun c _ => (groupRecords_length c).symm)
  rw [h1, ← List.length_flatten, chunkLoop_groupRecords _ _ hcs]

/-- `trim` with chunks completing in submission order equals the fully
sequential trim of all records. -/
theorem trim_run_range (rd : FASTQReader) (pos five_prime three_prime : Nat)
    (hcs : 0 < rd.chunk_size) :
    (rd.trim pos (List.range (chunkLoop rd.lines rd.chunk_size 0).1.length)
        five_prime three_prime).1 =
      trim_records_cython (groupRecords rd.lines) five_prime three_prime := by
  rw [trim_fst]
  rw [show (chunkLoop rd.lines rd.chunk_size 0).1.length =
      ((chunkLoop rd.lines rd.chunk_size 0).1.map
        (fun chunk => trim_records_cython (groupRecords chunk) five_prime three_prime)).length
    by rw [List.length_map]]
  rw [gather_range, trim_batches_flatten rd five_prime three_prime hcs]

/-- `trim` under any completion order is a permutation of the sequential
trim. -/
theorem trim_run_perm (rd : FASTQReader) (pos five_prime three_prime : Nat)
    (order : List Nat) (hcs : 0 < rd.chunk_size)
    (h : order.Perm (List.range (chunkLoop rd.lines rd.chunk_size 0).1.length)) :
    ((rd.trim pos order five_prime three_prime).1).Perm
      (trim_records_cython (groupRecords rd.lines) five_prime three_prime) := by
  rw [trim_fst]
  refine (gather_perm _ _ (by simpa using h)).trans ?_
  rw [trim_batches_flatten rd five_prime three_prime hcs]

/-- `filter_quality` with chunks completing in submission order equals the
fully sequential filter. -/
theorem filter_quality_run_range (rd : FASTQReader) (pos : Nat) (threshold : ℚ)
    (hcs : 0 < rd.chunk_size) :
    (rd.filter_quality pos (List.range (chunkLoop rd.lines rd.chunk_size 0).1.length)
        threshold).1 =
      filter_quality_cython (groupRecords rd.lines) threshold := by
  rw [filter_quality_fst]
  rw [show (chunkLoop rd.lines rd.chunk_size 0).1.length =
      ((chunkLoop rd.lines rd.chunk_size 0).1.map
        (fun chunk => filter_quality_cython (groupRecords chunk) threshold)).length
    by rw [List.length_map]]
  rw [gather_range, filter_batches_flatten rd threshold hcs]

/-- `filter_quality` under any completion order is a permutation of the
sequential filter. -/
theorem filter_quality_run_perm (rd : FASTQReader) (pos : Nat) (threshold : ℚ)
    (order : List Nat) (hcs : 0 < rd.chunk_size)
    (h : order.Perm (List.range (chunkLoop rd.lines rd.chunk_size 0).1.length)) :
    ((rd.filter_quality pos order threshold).1).Perm
      (filter_quality_cython (groupRecords rd.lines) threshold) := by
  rw [filter_quality_fst]
  refine (gather_perm _ _ (by simpa using h)).trans ?_
  rw [filter_batches_flatten rd threshold hcs]

/-- `extract` (no save) with chunks completing in submission order returns
the sequential extraction. -/
theorem extract_run_range (rd : FASTQReader) (pos : Nat) (start stop : Int)
    (hcs : 0 < rd.chunk_size) :
    (rd.extract pos (List.range (chunkLoop rd.lines rd.chunk_size 0).1.length)
        start stop false).1.1 =
      some ((extractSeqs rd.lines).map (fun s => pySlice s start stop)) := by
  rw [extract_fst]
  rw [show (chunkLoop rd.lines rd.chunk_size 0).1.length =
      ((chunkLoop rd.lines rd.chunk_size 0).1.map
        (fun chunk => (extractSeqs chunk).map (fun s => pySlice s start stop))).length
    by rw [List.length_map]]
  rw [if_neg (by simp), gather_range, extract_batches_flatten rd start stop hcs]

/-- `extract` (no save) under any completion order returns a permutation of
the sequential extraction. -/
theorem extract_run_perm (rd : FASTQReader) (pos : Nat) (start stop : Int)
    (order : List Nat) (hcs : 0 < rd.chunk_size)
    (h : order.Perm (List.range (chunkLoop rd.lines rd.chunk_size 0).1.length)) :
    ∃ res, (rd.extract pos order start stop false).1.1 = some res ∧
      res.Perm ((extractSeqs rd.lines).map (fun s => pySlice s start stop)) := by
  rw [extract_fst, if_neg (by simp)]
  refine ⟨_, rfl, ?_⟩
  refine (gather_perm _ _ (by simpa using h)).trans ?_
  rw [extract_batches_flatten rd start stop hcs]

/-- Every chunk before the last one read is full: exactly `chunk_size * 4`
lines. -/
theorem chunkLoopF_dropLast_full (file : List Line) (cs : Nat) :
    ∀ fuel pos, ∀ c ∈ ((chunkLoopF file cs fuel pos).1).dropLast, c.length = cs * 4
  | 0, pos => by simp [chunkLoopF]
  | fuel + 1, pos => by
    rw [chunkLoopF_succ]
    by_cases hnil : (file.drop pos).take (cs * 4) = []
    · simp [hnil]
    · simp only [hnil, if_false]
      intro c hc
      cases hrest : (chunkLoopF file cs fuel (pos + ((file.drop pos).take (cs * 4)).length)).1 with
      | nil =>
        rw [hrest] at hc
        simp at hc
      | cons r0 rs =>
        rw [hrest] at hc
        rw [List.dropLast_cons_of_ne_nil (by simp)] at hc
        rcases List.mem_cons.mp hc with hceq | hmem
        · subst hceq
          by_contra hlen
          have hle : (file.drop pos).length ≤ cs * 4 := by
            by_contra hgt
            push_neg at hgt
            exact hlen (by rw [List.length_take]; omega)
          have hpos' : file.length ≤ pos + ((file.drop pos).take (cs * 4)).length := by
            rw [List.take_of_length_le hle, List.length_drop]
            omega
          rw [chunkLoopF_of_le file cs fuel _ hpos'] at hrest
          simp at hrest
        · have hIH := chunkLoopF_dropLast_full file cs fuel
            (pos + ((file.drop pos).take (cs * 4)).length)
          rw [hrest] at hIH
          exact hIH c hmem

/-- Once the loop has stopped, a further `load_chunk` on the handle reads
zero lines. -/
theorem chunkLoopF_end_empty (file : List Line) (cs : Nat) :
    ∀ fuel pos, file.length ≤ fuel + pos →
      (file.drop (chunkLoopF file cs fuel pos).2).take (cs * 4) = []
  | 0, pos, h => by
    have hd : file.drop pos = [] := List.drop_eq_nil_iff.mpr (by omega)
    simp [chunkLoopF, hd]
  | fuel + 1, pos, h => by
    rw [chunkLoopF_succ]
    by_cases hnil : (file.drop pos).take (cs * 4) = []
    · simp [hnil]
    · simp only [hnil, if_false]
      have hpos1 : 0 < ((file.drop pos).take (cs * 4)).length :=
        List.length_pos.mpr hnil
      exact chunkLoopF_end_empty file cs fuel
        (pos + ((file.drop pos).take (cs * 4)).length) (by omega)

/-! ### Claims -/

/-- Claim C1: the spec states that trim / filter_quality / extract return the
same ordered result as a fully sequential execution for every completion
interleaving, with per-chunk batches concatenated in ascending chunk-index
order, never in completion order. The code instead extends the result list
in `as_completed` (completion) order: on the two-record test file with
`chunk_size = 1`, the valid completion order in which chunk 1 finishes
before chunk 0 yields a result different from the sequential one for all
three operations. -/
theorem claim1_completion_order_bug :
    ([1, 0].Perm (List.range 2)) ∧
    (chunkLoop sampleLines 1 0).1.length = 2 ∧
    (sampleReader.trim 0 [1, 0] 0 0).1 ≠ (sampleReader.trim 0 [0, 1] 0 0).1 ∧
    (sampleReader.trim 0 [0, 1] 0 0).1 =
      trim_records_cython (groupRecords sampleLines) 0 0 ∧
    ((FASTQReader.mk qualLines 4 1).filter_quality 0 [1, 0] 0).1 ≠
      ((FASTQReader.mk qualLines 4 1).filter_quality 0 [0, 1] 0).1 ∧
    (sampleReader.extract 0 [1, 0] 0 12 false).1.1 ≠
      (sampleReader.extract 0 [0, 1] 0 12 false).1.1 := by
  refine ⟨by decide, by decide, by decide, by decide, by decide, by decide⟩

/-- Claim C2: the spec states that for every public operation a trailing
incomplete 4-line group contributes nothing to the output. This holds for
iterate, count_reads, trim and filter_quality, but not for extract: its
grouping guard is `if i + 1 < len(lines)`, so on a file holding one complete
record followed by a 2-line fragment, extract's output has a second entry
derived from the fragment's sequence line. -/
theorem claim2_extract_truncated_group_bug :
    (groupRecords truncLines).length = 1 ∧
    ((FASTQReader.mk truncLines 4 1).iterate 0).1.length = 1 ∧
    ((FASTQReader.mk truncLines 4 1).count_reads 0 [0, 1]).1 = 1 ∧
    ((FASTQReader.mk truncLines 4 1).trim 0 [0, 1] 0 0).1.length = 1 ∧
    ((FASTQReader.mk truncLines 4 1).filter_quality 0 [0, 1] 0).1.length = 1 ∧
    ((FASTQReader.mk truncLines 4 1).extract 0 [0, 1] 0 12 false).1.1 =
      some ["ACGTACGTACGT".toList, "TGCAAGCTTGCA".toList] := by
  refine ⟨by decide, by decide, by decide, by decide, by decide, by decide⟩

/-- Claim C3: `count_reads` returns exactly the number of records produced
by sequential iteration over the same file (the number of complete 4-line
groups), for every `chunk_size ≥ 1` and every completion order of the chunk
futures; the worker count never enters the data path. -/
theorem claim3_count_eq_iterate (rd : FASTQReader) (p q : Nat) (order : List Nat)
    (hcs : 0 < rd.chunk_size)
    (h : order.Perm (List.range (chunkLoop rd.lines rd.chunk_size 0).1.length)) :
    (rd.count_reads p order).1 = (rd.iterate q).1.length := by
  rw [count_reads_run rd p order hcs h]
  rfl

/-- Witness for C3 on the two-record test file, chunk size 1, with the two
chunk futures completing in reversed order. -/
theorem claim3_witness :
    0 < sampleReader.chunk_size ∧
    ([1, 0].Perm (List.range (chunkLoop sampleReader.lines sampleReader.chunk_size 0).1.length)) ∧
    (sampleReader.count_reads 5 [1, 0]).1 = (sampleReader.iterate 3).1.length :=
  ⟨by decide, by decide, claim3_count_eq_iterate sampleReader 5 3 [1, 0] (by decide) (by decide)⟩

/-- Claim C10: among the chunks produced by repeatedly calling `load_chunk`,
every chunk except possibly the last holds exactly `chunk_size * 4` lines;
once the loop has stopped, a further `load_chunk` on the handle returns zero
lines and leaves the handle in place; the chunks concatenate back to the
file; and grouping each chunk's lines four at a time reproduces the global
4-line grouping of the file. -/
theorem claim10_chunk_invariants (file : List Line) (cs pos : Nat) (hcs : 0 < cs) :
    (∀ c ∈ (chunkLoop file cs pos).1.dropLast, c.length = cs * 4) ∧
    (load_chunk file cs (chunkLoop file cs pos).2 = ([], (chunkLoop file cs pos).2)) ∧
    ((chunkLoop file cs 0).1.flatten = file) ∧
    (((chunkLoop file cs 0).1.map groupRecords).flatten = groupRecords file) := by
  refine ⟨chunkLoopF_dropLast_full file cs (file.length + 1) pos, ?_,
    chunkLoop_flatten file cs hcs, chunkLoop_groupRecords file cs hcs⟩
  have he := chunkLoopF_end_empty file cs (file.length + 1) pos (by omega)
  unfold chunkLoop load_chunk
  rw [he]
  rfl

/-- Witness for C10 on the two-record test file with chunk size 1. -/
theorem claim10_witness :
    0 < 1 ∧
    ((∀ c ∈ (chunkLoop sampleLines 1 0).1.dropLast, c.length = 1 * 4) ∧
     (load_chunk sampleLines 1 (chunkLoop sampleLines 1 0).2 =
       ([], (chunkLoop sampleLines 1 0).2)) ∧
     ((chunkLoop sampleLines 1 0).1.flatten = sampleLines) ∧
     (((chunkLoop sampleLines 1 0).1.map groupRecords).flatten = groupRecords sampleLines)) :=
  ⟨by decide, claim10_chunk_invariants sampleLines 1 0 (by decide)⟩

/-- Claim C4: for every input record and all `five_prime, three_prime ≥ 0`,
trim outputs a record whose `seq` and `quality` are the substrings from
index `five_prime` up to `len - three_prime`, whose `info` is unchanged, and
whose `seq` and `quality` are both empty (not an error) whenever
`five_prime + three_prime ≥ len`; under any completion order the output
records are exactly the images of the input records under this per-record
transformation (and exactly in input order when chunks complete in
submission order). -/
theorem claim4_trim_per_record (rd : FASTQReader) (pos five_prime three_prime : Nat)
    (order : List Nat) (hcs : 0 < rd.chunk_size)
    (h : order.Perm (List.range (chunkLoop rd.lines rd.chunk_size 0).1.length)) :
    ((rd.trim pos order five_prime three_prime).1).Perm
      ((groupRecords rd.lines).map (trimOne five_prime three_prime)) ∧
    (rd.trim pos (List.range (chunkLoop rd.lines rd.chunk_size 0).1.length)
        five_prime three_prime).1 =
      (groupRecords rd.lines).map (trimOne five_prime three_prime) ∧
    (∀ r : FASTQRecord,
      (trimOne five_prime three_prime r).info = r.info ∧
      (trimOne five_prime three_prime r).seq =
        (r.seq.drop five_prime).take (r.seq.length - three_prime - five_prime) ∧
      (trimOne five_prime three_prime r).quality =
        (r.quality.drop five_prime).take (r.quality.length - three_prime - five_prime) ∧
      (r.seq.length ≤ five_prime + three_prime →
        (trimOne five_prime three_prime r).seq = []) ∧
      (r.quality.length ≤ five_prime + three_prime →
        (trimOne five_prime three_prime r).quality = [])) := by
  refine ⟨trim_run_perm rd pos five_prime three_prime order hcs h,
    trim_run_range rd pos five_prime three_prime hcs, ?_⟩
  intro r
  refine ⟨rfl, ?_, ?_, ?_, ?_⟩
  · rw [show (trimOne five_prime three_prime r).seq =
            pyTrimSlice five_prime three_prime r.seq from rfl,
      pyTrimSlice, List.drop_take]
  · rw [show (trimOne five_prime three_prime r).quality =
            pyTrimSlice five_prime three_prime r.quality from rfl,
      pyTrimSlice, List.drop_take]
  · intro hle
    rw [show (trimOne five_prime three_prime r).seq =
            pyTrimSlice five_prime three_prime r.seq from rfl,
      pyTrimSlice, List.drop_take]
    rw [show r.seq.length - three_prime - five_prime = 0 by omega, List.take_zero]
  · intro hle
    rw [show (trimOne five_prime three_prime r).quality =
            pyTrimSlice five_prime three_prime r.quality from rfl,
      pyTrimSlice, List.drop_take]
    rw [show r.quality.length - three_prime - five_prime = 0 by omega, List.take_zero]

/-- Witness for C4: the test file, `trim(2, 2)`, reversed completion order. -/
theorem claim4_witness :
    0 < sampleReader.chunk_size ∧
    ([1, 0].Perm (List.range (chunkLoop sampleReader.lines sampleReader.chunk_size 0).1.length)) ∧
    (((sampleReader.trim 0 [1, 0] 2 2).1).Perm
      ((groupRecords sampleLines).map (trimOne 2 2)) ∧
     (sampleReader.trim 0 (List.range (chunkLoop sampleReader.lines sampleReader.chunk_size 0).1.length)
        2 2).1 = (groupRecords sampleLines).map (trimOne 2 2) ∧
     (∀ r : FASTQRecord,
      (trimOne 2 2 r).info = r.info ∧
      (trimOne 2 2 r).seq = (r.seq.drop 2).take (r.seq.length - 2 - 2) ∧
      (trimOne 2 2 r).quality = (r.quality.drop 2).take (r.quality.length - 2 - 2) ∧
      (r.seq.length ≤ 2 + 2 → (trimOne 2 2 r).seq = []) ∧
      (r.quality.length ≤ 2 + 2 → (trimOne 2 2 r).quality = []))) :=
  ⟨by decide, by decide, claim4_trim_per_record sampleReader 0 2 2 [1, 0] (by decide) (by decide)⟩

/-- Claim C8: every record output by `trim(a, b)` has sequence and quality of
equal length, provided the input records satisfy the data-model invariant
`len(seq) == len(quality)`; this holds for every chunk size, starting cursor
and completion order. -/
theorem claim8_trim_preserves_length (rd : FASTQReader)
    (pos five_prime three_prime : Nat) (order : List Nat)
    (hcs : 0 < rd.chunk_size)
    (hinv : ∀ r ∈ groupRecords rd.lines, r.seq.length = r.quality.length) :
    ∀ out ∈ (rd.trim pos order five_prime three_prime).1,
      out.seq.length = out.quality.length := by
  intro out hout
  rw [trim_fst] at hout
  rcases mem_gather hout with ⟨b, hb, hob⟩
  rcases List.mem_map.mp hb with ⟨chunk, hchunk, rfl⟩
  simp only [trim_records_cython] at hob
  rcases List.mem_map.mp hob with ⟨r, hr, rfl⟩
  have hrfile : r ∈ groupRecords rd.lines := by
    rw [← chunkLoop_groupRecords rd.lines rd.chunk_size hcs, List.mem_flatten]
    exact ⟨groupRecords chunk, List.mem_map_of_mem _ hchunk, hr⟩
  have hlen := hinv r hrfile
  simp only [trimOne, pyTrimSlice, List.length_drop, List.length_take]
  omega

/-- Witness for C8: the test file (all records have matching lengths),
`trim(2, 2)`, reversed completion order. -/
theorem claim8_witness :
    0 < sampleReader.chunk_size ∧
    (∀ r ∈ groupRecords sampleLines, r.seq.length = r.quality.length) ∧
    ∀ out ∈ (sampleReader.trim 0 [1, 0] 2 2).1,
      out.seq.length = out.quality.length :=
  ⟨by decide, by decide,
    claim8_trim_preserves_length sampleReader 0 2 2 [1, 0] (by decide) (by decide)⟩

theorem scoreSum_cast (q : Line) :
    ((scoreSum q : ℤ) : ℚ) = (q.map (fun c => ((c.toNat : Int) - 33 : ℚ))).sum := by
  induction q with
  | nil => simp [scoreSum]
  | cons c t ih =>
    simp only [scoreSum, List.map_cons, List.sum_cons] at ih ⊢
    rw [Int.cast_add, ih]
    push_cast
    ring

/-- The integer comparison used by `passes_threshold` says exactly that the
arithmetic mean of the Phred+33 scores reaches the threshold (and the
quality string is non-empty). -/
theorem passes_threshold_iff_mean (threshold : ℚ) (r : FASTQRecord) :
    passes_threshold threshold r = true ↔
      (0 < r.quality.length ∧
        threshold ≤ (r.quality.map (fun c => ((c.toNat : Int) - 33 : ℚ))).sum /
          (r.quality.length : ℚ)) := by
  simp only [passes_threshold, Bool.and_eq_true, decide_eq_true_eq]
  refine and_congr_right (fun hn => ?_)
  rw [← scoreSum_cast]
  have hnq : (0 : ℚ) < (r.quality.length : ℚ) := by exact_mod_cast hn
  have hden : (0 : ℚ) < (threshold.den : ℚ) := by exact_mod_cast threshold.den_pos
  have hnum : (threshold.num : ℚ) = threshold * (threshold.den : ℚ) := by
    conv_lhs => rw [← div_mul_cancel₀ (b := (threshold.den : ℚ))
      (threshold.num : ℚ) (ne_of_gt hden)]
    rw [Rat.num_div_den]
  rw [le_div_iff₀ hnq]
  constructor
  · intro hZ
    have hQ : ((threshold.num * r.quality.length : ℤ) : ℚ) ≤
        ((scoreSum r.quality * threshold.den : ℤ) : ℚ) := by exact_mod_cast hZ
    push_cast at hQ
    rw [hnum, mul_right_comm] at hQ
    exact le_of_mul_le_mul_right hQ hden
  · intro hQ
    have h1 : threshold * (r.quality.length : ℚ) * (threshold.den : ℚ) ≤
        ((scoreSum r.quality : ℤ) : ℚ) * (threshold.den : ℚ) :=
      mul_le_mul_of_nonneg_right hQ (le_of_lt hden)
    rw [mul_right_comm, ← hnum] at h1
    exact_mod_cast h1

/-- Claim C5 is refuted as stated: with two chunks whose futures complete in
reversed order, `filter_quality` returns the surviving records out of input
order. At threshold 0 both records of the quality test file survive, yet
the result is not the input-order list. -/
theorem claim5_counterexample :
    ([1, 0].Perm (List.range (chunkLoop qualLines 1 0).1.length)) ∧
    (∀ r ∈ groupRecords qualLines, passes_threshold 0 r = true) ∧
    ((FASTQReader.mk qualLines 4 1).filter_quality 0 [1, 0] 0).1.length = 2 ∧
    ((FASTQReader.mk qualLines 4 1).filter_quality 0 [1, 0] 0).1 ≠
      groupRecords qualLines := by
  refine ⟨by decide, by decide, by decide, by decide⟩

/-- Claim C5 (amended): `filter_quality(threshold)` keeps exactly those
input records, unchanged, whose arithmetic mean of per-character Phred+33
scores is ≥ threshold, a record with an empty quality string being
excluded; under any completion order the output is a permutation of the
input-order filtering (each chunk's survivors in input order, chunks
concatenated in completion order), and equals the input-order filtering
when chunks complete in submission order. -/
theorem claim5_filter_quality (rd : FASTQReader) (pos : Nat) (threshold : ℚ)
    (order : List Nat) (hcs : 0 < rd.chunk_size)
    (h : order.Perm (List.range (chunkLoop rd.lines rd.chunk_size 0).1.length)) :
    ((rd.filter_quality pos order threshold).1).Perm
      ((groupRecords rd.lines).filter (passes_threshold threshold)) ∧
    (rd.filter_quality pos (List.range (chunkLoop rd.lines rd.chunk_size 0).1.length)
        threshold).1 =
      (groupRecords rd.lines).filter (passes_threshold threshold) ∧
    (∀ r : FASTQRecord, passes_threshold threshold r = true ↔
      (0 < r.quality.length ∧
        threshold ≤ (r.quality.map (fun c => ((c.toNat : Int) - 33 : ℚ))).sum /
          (r.quality.length : ℚ))) := by
  refine ⟨?_, ?_, fun r => passes_threshold_iff_mean threshold r⟩
  · have hp := filter_quality_run_perm rd pos threshold order hcs h
    simpa [filter_quality_cython] using hp
  · have hp := filter_quality_run_range rd pos threshold hcs
    simpa [filter_quality_cython] using hp

/-- Witness for C5: the quality test file, threshold 30, two chunks
completing in reversed order. -/
theorem claim5_witness :
    0 < (FASTQReader.mk qualLines 4 1).chunk_size ∧
    ([1, 0].Perm (List.range
      (chunkLoop (FASTQReader.mk qualLines 4 1).lines
        (FASTQReader.mk qualLines 4 1).chunk_size 0).1.length)) ∧
    (((FASTQReader.mk qualLines 4 1).filter_quality 0 [1, 0] 30).1).Perm
      ((groupRecords qualLines).filter (passes_threshold 30)) :=
  ⟨by decide, by decide,
    (claim5_filter_quality (FASTQReader.mk qualLines 4 1) 0 30 [1, 0]
      (by decide) (by decide)).1⟩

theorem pySlice_start_past (s : Line) (i j : Int) (hi : 0 ≤ i)
    (hlen : (s.length : Int) ≤ i) : pySlice s i j = [] := by
  have ha : pyIndex s.length i = s.length := by
    simp only [pyIndex, if_neg (by omega : ¬ i < 0)]
    omega
  rw [pySlice, ha]
  apply List.drop_eq_nil_iff.mpr
  rw [List.length_take]
  omega

theorem pySlice_nonneg (s : Line) (i j : Int) (hi : 0 ≤ i) (hj : 0 ≤ j) :
    pySlice s i j = (s.drop i.toNat).take (j.toNat - i.toNat) := by
  rw [pySlice, List.drop_take]
  simp only [pyIndex, if_neg (by omega : ¬ i < 0), if_neg (by omega : ¬ j < 0)]
  rcases le_or_lt i.toNat s.length with h1 | h1
  · rw [min_eq_left h1]
    rcases le_or_lt j.toNat s.length with h2 | h2
    · rw [min_eq_left h2]
    · rw [min_eq_right (le_of_lt h2)]
      rw [List.take_of_length_le (by rw [List.length_drop]),
          List.take_of_length_le (by rw [List.length_drop]; omega)]
  · rw [min_eq_right (le_of_lt h1)]
    rw [List.drop_length, List.drop_eq_nil_iff.mpr (by omega)]
    simp

theorem pySlice_neg_start (s : Line) (i j : Int) (hi : i < 0)
    (hlow : -(s.length : Int) ≤ i) :
    pySlice s i j = pySlice s ((s.length : Int) + i) j := by
  have hidx : pyIndex s.length i = pyIndex s.length ((s.length : Int) + i) := by
    simp only [pyIndex, if_pos hi, if_neg (by omega : ¬ (s.length : Int) + i < 0)]
    omega
  rw [pySlice, pySlice, hidx]

/-- Claim C6 is refuted as stated: `extract(start, end)` does not always
return the ordered list of `seq[start:end]` over the records. With two
chunks whose futures complete in reversed order the two substrings come
back swapped; moreover (see C2) a trailing incomplete group also
contributes an entry even though it is not a record. -/
theorem claim6_counterexample :
    ([1, 0].Perm (List.range (chunkLoop sampleLines 1 0).1.length)) ∧
    (sampleReader.extract 0 [1, 0] 2 6 false).1.1 ≠
      some ((groupRecords sampleLines).map (fun r => pySlice r.seq 2 6)) ∧
    ((FASTQReader.mk truncLines 4 1).extract 0 [0, 1] 2 6 false).1.1 ≠
      some ((groupRecords truncLines).map (fun r => pySlice r.seq 2 6)) := by
  refine ⟨by decide, by decide, by decide⟩

/-- Claim C6 (amended): with the save flag unset, `extract(start, end)`
returns the Python slices `seq[start:end]` of the collected sequence lines —
the second line of every 4-line group, including a trailing incomplete
group when it has at least two lines — each chunk's slices in input order
and chunks concatenated in completion order (equal to input order when
chunks complete in submission order); the slicing clips indices Python
style (a start at or beyond the length yields the empty string, indices
clip to the bounds, a negative index counts from the end). With the save
flag set the same list is written to the columnar sink and the call returns
no in-memory result. -/
theorem claim6_extract (rd : FASTQReader) (pos : Nat) (start stop : Int)
    (order : List Nat) (hcs : 0 < rd.chunk_size)
    (h : order.Perm (List.range (chunkLoop rd.lines rd.chunk_size 0).1.length)) :
    (rd.extract pos (List.range (chunkLoop rd.lines rd.chunk_size 0).1.length)
        start stop false).1.1 =
      some ((extractSeqs rd.lines).map (fun s => pySlice s start stop)) ∧
    (∃ res, (rd.extract pos order start stop false).1.1 = some res ∧
      res.Perm ((extractSeqs rd.lines).map (fun s => pySlice s start stop))) ∧
    ((rd.extract pos order start stop true).1.1 = none) ∧
    ((rd.extract pos order start stop true).1.2 =
      (rd.extract pos order start stop false).1.1) ∧
    (∀ s : Line, ∀ i j : Int, 0 ≤ i → (s.length : Int) ≤ i → pySlice s i j = []) ∧
    (∀ s : Line, ∀ i j : Int, 0 ≤ i → 0 ≤ j →
      pySlice s i j = (s.drop i.toNat).take (j.toNat - i.toNat)) ∧
    (∀ s : Line, ∀ i j : Int, i < 0 → -(s.length : Int) ≤ i →
      pySlice s i j = pySlice s ((s.length : Int) + i) j) := by
  refine ⟨extract_run_range rd pos start stop hcs,
    extract_run_perm rd pos start stop order hcs h, rfl, rfl,
    fun s i j hi hlen => pySlice_start_past s i j hi hlen,
    fun s i j hi hj => pySlice_nonneg s i j hi hj,
    fun s i j hi hlow => pySlice_neg_start s i j hi hlow⟩

/-- Witness for C6: the test file, `extract(2, 6)`, reversed completion
order. -/
theorem claim6_witness :
    0 < sampleReader.chunk_size ∧
    ([1, 0].Perm (List.range
      (chunkLoop sampleReader.lines sampleReader.chunk_size 0).1.length)) ∧
    (∃ res, (sampleReader.extract 0 [1, 0] 2 6 false).1.1 = some res ∧
      res.Perm ((extractSeqs sampleLines).map (fun s => pySlice s 2 6))) :=
  ⟨by decide, by decide,
    (claim6_extract sampleReader 0 2 6 [1, 0] (by decide) (by decide)).2.1⟩

/-- Claim C7 is refuted as stated: iterate does not restore the cursor to
file start before returning (after exhausting the generator the handle sits
at end-of-file, position 8 on the test file), and two successive calls of a
parallel operation need not yield identical results, because each call has
its own non-deterministic completion order. -/
theorem claim7_counterexample :
    (sampleReader.iterate 0).2 = 8 ∧ (8 : Nat) ≠ 0 ∧
    ([0, 1].Perm (List.range (chunkLoop sampleLines 1 0).1.length)) ∧
    ([1, 0].Perm (List.range (chunkLoop sampleLines 1 0).1.length)) ∧
    (sampleReader.trim 0 [0, 1] 0 0).1 ≠
      (sampleReader.trim (sampleReader.trim 0 [0, 1] 0 0).2 [1, 0] 0 0).1 := by
  refine ⟨by decide, by decide, by decide, by decide, by decide⟩

/-- Claim C7 (amended): every public operation resets the line source to
file start before processing, so its result does not depend on the cursor
position left by earlier calls, and a repeated call with the same
completion order returns the same result; count_reads, trim,
filter_quality and extract also restore the cursor to file start before
returning, whereas iterate leaves it at end-of-file once the returned
generator is exhausted. -/
theorem claim7_reset_discipline (rd : FASTQReader) (p q : Nat) (order : List Nat)
    (five_prime three_prime : Nat) (threshold : ℚ) (start stop : Int)
    (save_parquet : Bool) :
    (rd.count_reads p order = rd.count_reads q order ∧
     (rd.count_reads p order).2 = 0 ∧
     rd.count_reads (rd.count_reads p order).2 order = rd.count_reads p order) ∧
    (rd.trim p order five_prime three_prime = rd.trim q order five_prime three_prime ∧
     (rd.trim p order five_prime three_prime).2 = 0 ∧
     rd.trim (rd.trim p order five_prime three_prime).2 order five_prime three_prime =
       rd.trim p order five_prime three_prime) ∧
    (rd.filter_quality p order threshold = rd.filter_quality q order threshold ∧
     (rd.filter_quality p order threshold).2 = 0 ∧
     rd.filter_quality (rd.filter_quality p order threshold).2 order threshold =
       rd.filter_quality p order threshold) ∧
    (rd.extract p order start stop save_parquet = rd.extract q order start stop save_parquet ∧
     (rd.extract p order start stop save_parquet).2 = 0 ∧
     rd.extract (rd.extract p order start stop save_parquet).2 order start stop save_parquet =
       rd.extract p order start stop save_parquet) ∧
    ((rd.iterate p).1 = (rd.iterate q).1 ∧
     (rd.iterate (rd.iterate p).2).1 = (rd.iterate p).1 ∧
     (rd.iterate p).2 = rd.lines.length) :=
  ⟨⟨rfl, rfl, rfl⟩, ⟨rfl, rfl, rfl⟩, ⟨rfl, rfl, rfl⟩, ⟨rfl, rfl, rfl⟩, ⟨rfl, rfl, rfl⟩⟩

/-- When every batch succeeded, the collection loop returns all batches,
concatenated in completion order. -/
theorem gatherE_all_ok {α : Type} (batches : List (Except String (List α)))
    (hok : ∀ b ∈ batches, ∃ l, b = Except.ok l) :
    ∀ order : List Nat, gatherE batches order =
      Except.ok (gather (batches.map (fun b => b.toOption.getD [])) order)
  | [] => rfl
  | i :: rest => by
    have hi : batches.getD i (Except.ok []) =
        Except.ok ((batches.map (fun b => b.toOption.getD [])).getD i []) := by
      by_cases hlt : i < batches.length
      · rcases hok batches[i] (List.getElem_mem hlt) with ⟨l, hl⟩
        rw [List.getD_eq_getElem _ _ hlt,
          List.getD_eq_getElem _ _ (by simpa using hlt), List.getElem_map, hl]
        rfl
      · rw [List.getD_eq_default _ _ (by omega),
          List.getD_eq_default _ _ (by simpa using (by omega : batches.length ≤ i))]
    rw [gatherE, hi, gatherE_all_ok batches hok rest]
    rw [show gather (batches.map (fun b => b.toOption.getD [])) (i :: rest) =
      (batches.map (fun b => b.toOption.getD [])).getD i [] ++
        gather (batches.map (fun b => b.toOption.getD [])) rest from
      by rw [gather, gather, List.flatMap_cons]]

/-- If some submitted chunk's transform failed and its future is in the
completion order, the collection loop surfaces an error. -/
theorem gatherE_error {α : Type} (batches : List (Except String (List α)))
    (k : Nat) (e0 : String) (hk : batches.getD k (Except.ok []) = Except.error e0) :
    ∀ order : List Nat, k ∈ order →
      ∃ e, gatherE batches order = Except.error e
  | [], h => absurd h (List.not_mem_nil k)
  | i :: rest, h => by
    rcases List.mem_cons.mp h with rfl | hmem
    · rw [gatherE, hk]
      exact ⟨e0, rfl⟩
    · cases hgi : batches.getD i (Except.ok []) with
      | error e =>
        rw [gatherE, hgi]
        exact ⟨e, rfl⟩
      | ok b =>
        rcases gatherE_error batches k e0 hk rest hmem with ⟨e, he⟩
        rw [gatherE, hgi, he]
        exact ⟨e, rfl⟩

/-- Claim C9 is refuted as stated: the operation can return a complete but
incorrectly ordered result. With both chunk transforms succeeding and the
second future completing first, the collection loop returns all records,
but not in the sequential order the claim requires. -/
theorem claim9_counterexample :
    ([1, 0].Perm (List.range 2)) ∧
    gatherE [Except.ok (trim_records_cython (groupRecords (sampleLines.take 4)) 0 0),
             Except.ok (trim_records_cython (groupRecords (sampleLines.drop 4)) 0 0)]
        [1, 0] =
      Except.ok (trim_records_cython (groupRecords (sampleLines.drop 4)) 0 0 ++
                 trim_records_cython (groupRecords (sampleLines.take 4)) 0 0) ∧
    (trim_records_cython (groupRecords (sampleLines.drop 4)) 0 0 ++
     trim_records_cython (groupRecords (sampleLines.take 4)) 0 0) ≠
      trim_records_cython (groupRecords sampleLines) 0 0 := by
  refine ⟨by decide, rfl, by decide⟩

/-- Claim C9 (amended): if any chunk's transform invocation fails, the
whole operation fails with a single error surfaced to the caller and no
partial result list is returned; otherwise the operation returns a complete
result containing every chunk's batch exactly once, concatenated in
completion order (which need not be ascending chunk-index order). There is
no partial-success return mode. -/
theorem claim9_all_or_nothing {α : Type} (batches : List (Except String (List α)))
    (order : List Nat) (h : order.Perm (List.range batches.length)) :
    ((∀ b ∈ batches, ∃ l, b = Except.ok l) →
      ∃ res, gatherE batches order = Except.ok res ∧
        res.Perm ((batches.map (fun b => b.toOption.getD [])).flatten)) ∧
    ((∃ b ∈ batches, ∃ e, b = Except.error e) →
      ∃ e, gatherE batches order = Except.error e) := by
  constructor
  · intro hok
    refine ⟨_, gatherE_all_ok batches hok order, ?_⟩
    apply gather_perm
    simpa using h
  · rintro ⟨b, hb, e, rfl⟩
    rcases List.mem_iff_getElem.mp hb with ⟨k, hklt, hkk⟩
    have hgd : batches.getD k (Except.ok []) = Except.error e := by
      rw [List.getD_eq_getElem _ _ hklt, hkk]
    have hkmem : k ∈ order := h.mem_iff.mpr (List.mem_range.mpr hklt)
    exact gatherE_error batches k e hgd order hkmem

/-- Witness for C9: two chunk batches from the test file, one failing run
and one all-successful run, completion order reversed. -/
theorem claim9_witness :
    ([1, 0].Perm (List.range 2)) ∧
    (∃ res, gatherE okBatches [1, 0] = Except.ok res ∧
      res.Perm ((okBatches.map (fun b => b.toOption.getD [])).flatten)) ∧
    (∃ e, gatherE errBatches [1, 0] = Except.error e) :=
  ⟨by decide,
    (claim9_all_or_nothing okBatches [1, 0] (by decide)).1
      (fun b hb => by
        rcases List.mem_cons.mp hb with rfl | hb2
        · exact ⟨_, rfl⟩
        · rcases List.mem_cons.mp hb2 with rfl | hb3
          · exact ⟨_, rfl⟩
          · exact absurd hb3 (List.not_mem_nil b)),
    (claim9_all_or_nothing errBatches [1, 0] (by decide)).2
      ⟨Except.error "worker failed",
        List.mem_cons_of_mem _ (List.mem_cons_self _ _), "worker failed", rfl⟩⟩
